import Mathlib

/-!
Verification of the numerical core of the two financial scripts in this
repository: the NPV/IRR solver (src/project2.py) and the GBM path simulator
(src/project1.py).  Money amounts, rates and tolerances are embedded as exact
rationals; the GBM recurrence, which uses the transcendental functions exp and
sqrt, is embedded over the reals.
-/

namespace Project2

/-- Net present value of a cash-flow sequence at a discount rate.
Source: `npv(rate, cash_flows)` — a running total over
`for t in range(len(cash_flows)) : total_value += cash_flows[t] / ((1 + rate) ** t)`. -/
def npv (rate : ℚ) (cash_flows : List ℚ) : ℚ :=
  (List.range cash_flows.length).foldl
    (fun total_value t => total_value + cash_flows.getD t 0 / (1 + rate) ^ t) 0

/-- The mutable state of the bisection loop in `irr_bisection_interval`:
the current bracket `[low, high]` together with the cached values
`npv_low = npv(low)` and `npv_high = npv(high)`. -/
structure BisectState where
  low : ℚ
  high : ℚ
  npvLow : ℚ
  npvHigh : ℚ
  deriving DecidableEq

/-- The midpoint `mid = (low + high) / 2` computed at the top of each loop
iteration. -/
def BisectState.mid (s : BisectState) : ℚ := (s.low + s.high) / 2

/-- One non-returning iteration of the bisection loop: replace the endpoint
whose NPV has the same sign as the midpoint NPV (source lines 29-34:
`if npv_low * npv_mid < 0 : high, npv_high = mid, npv_mid
 else : low, npv_low = mid, npv_mid`). -/
def bisectStep (c : List ℚ) (s : BisectState) : BisectState :=
  let m := s.mid
  let npvMid := npv m c
  if s.npvLow * npvMid < 0 then ⟨s.low, m, s.npvLow, npvMid⟩
  else ⟨m, s.high, npvMid, s.npvHigh⟩

/-- The state at the start of iteration `n + 1` of the loop, assuming no
earlier iteration returned. -/
def bisectIter (c : List ℚ) : ℕ → BisectState → BisectState
  | 0, s => s
  | n + 1, s => bisectIter c n (bisectStep c s)

/-- The loop `for x in range(max_iter)` of `irr_bisection_interval`, with the
iterations still to run as fuel.  Each iteration computes `mid` and
`npv_mid = npv(mid)`; if `|npv_mid| < tol` it returns `mid`, otherwise it
shrinks the bracket via `bisectStep`.  When the fuel runs out the loop falls
through to `return mid`, the midpoint computed by the most recent iteration,
carried here in `lastMid`. -/
def bisectLoop (c : List ℚ) (tol : ℚ) : ℕ → BisectState → ℚ → ℚ
  | 0, _, lastMid => lastMid
  | n + 1, s, _ =>
    if |npv s.mid c| < tol then s.mid
    else bisectLoop c tol n (bisectStep c s) s.mid

/-- The state built at entry of `irr_bisection_interval`:
`npv_low = npv(low, cash_flows)`, `npv_high = npv(high, cash_flows)`. -/
def initState (c : List ℚ) (low high : ℚ) : BisectState :=
  ⟨low, high, npv low c, npv high c⟩

/-- Source: `irr_bisection_interval(cash_flows, low, high, tol=1e-6,
max_iter=1000)`.  Returns `none` when the endpoint NPVs have strictly the same
sign (`npv_low * npv_high > 0`), otherwise runs the bisection loop.  In the
source, `mid` is unbound if `max_iter = 0`; the initial `lastMid` value
`(low + high) / 2` is only reached in that (never exercised) case. -/
def irr_bisection_interval (c : List ℚ) (low high : ℚ)
    (tol : ℚ := 1/1000000) (max_iter : ℕ := 1000) : Option ℚ :=
  let s := initState c low high
  if s.npvLow * s.npvHigh > 0 then none
  else some (bisectLoop c tol max_iter s s.mid)

/-- The grid-building loop `r = rate_min; while r <= rate_max : rates.append(r);
r += step`, with explicit fuel (the source loop terminates because
`step > 0`; callers supply enough fuel for the loop to run to completion). -/
def ratesFrom (rate_max step : ℚ) : ℕ → ℚ → List ℚ
  | 0, _ => []
  | fuel + 1, r => if r ≤ rate_max then r :: ratesFrom rate_max step fuel (r + step) else []

/-- The full rate grid of `find_all_irrs`: `floor((rate_max - rate_min)/step) + 2`
fuel strictly exceeds the number of appended rates whenever `step > 0`, so the
fuel never truncates the loop. -/
def gridRates (rate_min rate_max step : ℚ) : List ℚ :=
  ratesFrom rate_max step (((rate_max - rate_min) / step).floor.toNat + 2) rate_min

/-- The bracket-collection loop of `find_all_irrs` (source lines 51-54):
`for i in range(len(rates) - 1) : if npv_values[i] * npv_values[i+1] < 0 :
intervals.append((rates[i], rates[i+1]))`. -/
def bracketList (rates npv_values : List ℚ) : List (ℚ × ℚ) :=
  (List.range (rates.length - 1)).filterMap fun i =>
    if npv_values.getD i 0 * npv_values.getD (i + 1) 0 < 0
    then some (rates.getD i 0, rates.getD (i + 1) 0) else none

/-- Source: `find_all_irrs(cash_flows, rate_min=-0.99, rate_max=10.0,
step=0.001)`.  Builds the rate grid, evaluates NPV on it, brackets every
strict sign change, refines each bracket with `irr_bisection_interval`
(dropping `None` results), and returns `(irrs, rates, npv_values)`. -/
def find_all_irrs (cash_flows : List ℚ) (rate_min : ℚ := -(99/100))
    (rate_max : ℚ := 10) (step : ℚ := 1/1000) : List ℚ × List ℚ × List ℚ :=
  let rates := gridRates rate_min rate_max step
  let npv_values := rates.map fun r => npv r cash_flows
  let intervals := bracketList rates npv_values
  let irrs := intervals.filterMap fun p => irr_bisection_interval cash_flows p.1 p.2
  (irrs, rates, npv_values)

end Project2

namespace Project1

/-- Initial stock price `S0 = 100`. -/
def S0 : ℝ := 100

/-- Drift `mu = 0.08`. -/
noncomputable def mu : ℝ := 8/100

/-- Volatility `sigma = 0.20`. -/
noncomputable def sigma : ℝ := 20/100

/-- Daily time step `dt = 1/252`. -/
noncomputable def dt : ℝ := 1/252

/-- Total simulation steps `steps = int(T/dt)` with `T = 1.0`: exactly 252. -/
def steps : ℕ := 252

/-- The GBM price grid `S`, indexed by time step and path, as a function of
the random-shock grid `Z` (source lines 19-26): `S[0] = S0` and
`S[t] = S[t-1] * exp((mu - 0.5*sigma**2)*dt + sigma*sqrt(dt)*Z[t-1])`,
applied entrywise across paths. -/
noncomputable def S (Z : ℕ → ℕ → ℝ) : ℕ → ℕ → ℝ
  | 0, _ => S0
  | t + 1, i =>
    S Z t i * Real.exp ((mu - 0.5 * sigma ^ 2) * dt + sigma * Real.sqrt dt * Z t i)

end Project1

namespace Project2

/-- Evaluating the running-total loop of `npv` from any accumulator adds the
discounted sum to the accumulator. -/
theorem foldl_add_range (f : ℕ → ℚ) :
    ∀ (n : ℕ) (a : ℚ),
      (List.range n).foldl (fun acc t => acc + f t) a = a + ∑ t ∈ Finset.range n, f t := by
  intro n
  induction n with
  | zero => intro a; simp
  | succ n ih =>
    intro a
    rw [List.range_succ, List.foldl_append, ih, Finset.sum_range_succ]
    simp [add_assoc]

/-- The loop of `npv` computes the discounted cash-flow sum. -/
theorem npv_eq_sum_aux (r : ℚ) (c : List ℚ) :
    npv r c = ∑ t ∈ Finset.range c.length, c.getD t 0 / (1 + r) ^ t := by
  rw [npv, foldl_add_range, zero_add]

/-- An in-bounds `getD` access returns an element of the list. -/
theorem getD_mem (l : List ℚ) (i : ℕ) (h : i < l.length) : l.getD i 0 ∈ l := by
  rw [List.getD_eq_getElem?_getD, List.getElem?_eq_getElem h]
  exact List.getElem_mem h

/-- NPV of a two-period cash flow in closed form. -/
theorem npv_pair (r a b : ℚ) : npv r [a, b] = a + b / (1 + r) := by
  simp [npv_eq_sum_aux, Finset.sum_range_succ]

/-- If every cash flow is nonnegative and the discount factor is positive,
the NPV is nonnegative. -/
theorem npv_nonneg {c : List ℚ} {r : ℚ} (hc : ∀ x ∈ c, 0 ≤ x) (hr : 0 < 1 + r) :
    0 ≤ npv r c := by
  rw [npv_eq_sum_aux]
  refine Finset.sum_nonneg fun t ht => ?_
  exact div_nonneg (hc _ (getD_mem c t (Finset.mem_range.1 ht))) (pow_nonneg hr.le t)

/-- If every cash flow is nonpositive and the discount factor is positive,
the NPV is nonpositive. -/
theorem npv_nonpos {c : List ℚ} {r : ℚ} (hc : ∀ x ∈ c, x ≤ 0) (hr : 0 < 1 + r) :
    npv r c ≤ 0 := by
  rw [npv_eq_sum_aux]
  refine Finset.sum_nonpos fun t ht => ?_
  exact div_nonpos_of_nonpos_of_nonneg (hc _ (getD_mem c t (Finset.mem_range.1 ht)))
    (pow_nonneg hr.le t)

/-- For a single negative outlay followed by a nonempty run of positive
inflows, NPV is strictly decreasing in the rate on rates above -1. -/
theorem npv_strictAnti_of_one_sign_change (c0 : ℚ) (rest : List ℚ)
    (hrest : ∀ x ∈ rest, 0 < x) (hne : rest ≠ []) {r1 r2 : ℚ}
    (h1 : -1 < r1) (h12 : r1 < r2) :
    npv r2 (c0 :: rest) < npv r1 (c0 :: rest) := by
  have hr1 : (0 : ℚ) < 1 + r1 := by linarith
  have hr2 : (0 : ℚ) < 1 + r2 := by linarith
  rw [npv_eq_sum_aux, npv_eq_sum_aux]
  have hlen : 0 < rest.length := List.length_pos.2 hne
  refine Finset.sum_lt_sum (fun t ht => ?_) ⟨1, Finset.mem_range.2 (by simp [hlen]), ?_⟩
  · match t with
    | 0 => simp
    | u + 1 =>
      have hu : u < rest.length := by
        have := Finset.mem_range.1 ht
        simpa using this
      have hx : 0 < rest.getD u 0 := hrest _ (getD_mem rest u hu)
      simp only [List.getD_cons_succ]
      refine le_of_lt (div_lt_div_of_pos_left hx (pow_pos hr1 _) ?_)
      exact pow_lt_pow_left₀ (by linarith) hr1.le (Nat.succ_ne_zero u)
  · have hx : 0 < rest.getD 0 0 := hrest _ (getD_mem rest 0 hlen)
    simp only [List.getD_cons_succ]
    refine div_lt_div_of_pos_left hx (pow_pos hr1 _) ?_
    exact pow_lt_pow_left₀ (by linarith) hr1.le one_ne_zero

end Project2

namespace Project2

/-- Every rate produced by the grid loop is at most `rate_max`. -/
theorem ratesFrom_mem_le {mx st : ℚ} :
    ∀ {fuel : ℕ} {r0 x : ℚ}, x ∈ ratesFrom mx st fuel r0 → x ≤ mx := by
  intro fuel
  induction fuel with
  | zero => intro r0 x hx; simp [ratesFrom] at hx
  | succ n ih =>
    intro r0 x hx
    rw [ratesFrom] at hx
    split at hx
    · rcases List.mem_cons.1 hx with rfl | hx
      · assumption
      · exact ih hx
    · simp at hx

/-- With a nonnegative step, every rate produced by the grid loop is at least
the starting rate. -/
theorem ratesFrom_mem_ge {mx st : ℚ} (hst : 0 ≤ st) :
    ∀ {fuel : ℕ} {r0 x : ℚ}, x ∈ ratesFrom mx st fuel r0 → r0 ≤ x := by
  intro fuel
  induction fuel with
  | zero => intro r0 x hx; simp [ratesFrom] at hx
  | succ n ih =>
    intro r0 x hx
    rw [ratesFrom] at hx
    split at hx
    · rcases List.mem_cons.1 hx with rfl | hx
      · exact le_refl x
      · exact le_trans (by linarith) (ih hx)
    · simp at hx

/-- With a positive step, the grid rates are strictly increasing. -/
theorem ratesFrom_sorted {mx st : ℚ} (hst : 0 < st) :
    ∀ (fuel : ℕ) (r0 : ℚ), (ratesFrom mx st fuel r0).Sorted (· < ·) := by
  intro fuel
  induction fuel with
  | zero => intro r0; simp [ratesFrom]
  | succ n ih =>
    intro r0
    rw [ratesFrom]
    split
    · refine List.sorted_cons.2 ⟨fun y hy => ?_, ih _⟩
      exact lt_of_lt_of_le (by linarith) (ratesFrom_mem_ge hst.le hy)
    · simp

/-- The bisection loop only ever returns a value inside an interval that
contains the current bracket and the carried last midpoint. -/
theorem bisectLoop_mem (c : List ℚ) (tol : ℚ) :
    ∀ (n : ℕ) (s : BisectState) (lm low0 high0 : ℚ),
      low0 ≤ s.low → s.low ≤ s.high → s.high ≤ high0 → low0 ≤ lm → lm ≤ high0 →
      low0 ≤ bisectLoop c tol n s lm ∧ bisectLoop c tol n s lm ≤ high0 := by
  intro n
  induction n with
  | zero => intro s lm low0 high0 _ _ _ h4 h5; exact ⟨h4, h5⟩
  | succ n ih =>
    intro s lm low0 high0 h1 h2 h3 _ _
    have hmid1 : s.low ≤ s.mid := by rw [BisectState.mid]; linarith
    have hmid2 : s.mid ≤ s.high := by rw [BisectState.mid]; linarith
    rw [bisectLoop]
    split
    · exact ⟨le_trans h1 hmid1, le_trans hmid2 h3⟩
    · rw [bisectStep]
      split
      · exact ih _ _ low0 high0 h1 hmid1 (le_trans hmid2 h3)
          (le_trans h1 hmid1) (le_trans hmid2 h3)
      · exact ih _ _ low0 high0 (le_trans h1 hmid1) hmid2 h3
          (le_trans h1 hmid1) (le_trans hmid2 h3)

/-- A numeric result of `irr_bisection_interval` on an ordered interval lies
inside that interval. -/
theorem irr_some_mem {c : List ℚ} {low high tol : ℚ} {mi : ℕ} {x : ℚ}
    (hlh : low ≤ high) (hx : irr_bisection_interval c low high tol mi = some x) :
    low ≤ x ∧ x ≤ high := by
  rw [irr_bisection_interval] at hx
  split at hx
  · exact absurd hx (by simp)
  · have hx' := Option.some_injective _ hx
    subst hx'
    exact bisectLoop_mem c tol mi _ _ low high (le_refl _) hlh (le_refl _)
      (by rw [initState, BisectState.mid]; dsimp only; linarith)
      (by rw [initState, BisectState.mid]; dsimp only; linarith)

end Project2

namespace Project2

/-- Unfolding one iteration of the iterated loop state. -/
theorem bisectIter_succ (c : List ℚ) (n : ℕ) (s : BisectState) :
    bisectIter c (n + 1) s = bisectIter c n (bisectStep c s) := rfl

/-- If no midpoint within the fuel meets the tolerance, the loop returns the
midpoint of the state at the start of its final iteration. -/
theorem bisectLoop_exhaust (c : List ℚ) (tol : ℚ) :
    ∀ (n : ℕ) (s : BisectState) (lm : ℚ), 1 ≤ n →
      (∀ j, j < n → ¬ |npv (bisectIter c j s).mid c| < tol) →
      bisectLoop c tol n s lm = (bisectIter c (n - 1) s).mid := by
  intro n
  induction n with
  | zero => intro s lm h; exact absurd h (by omega)
  | succ m ih =>
    intro s lm _ hj
    have h0 : ¬ |npv s.mid c| < tol := by
      have := hj 0 (Nat.succ_pos m)
      simpa [bisectIter] using this
    rw [bisectLoop, if_neg h0]
    cases m with
    | zero => simp [bisectLoop, bisectIter]
    | succ k =>
      rw [ih (bisectStep c s) s.mid (by omega) fun j hjk => ?_]
      · rfl
      · have := hj (j + 1) (by omega)
        rwa [bisectIter_succ] at this

/-- One loop iteration that does not meet the tolerance preserves the cached
endpoint NPVs and, when the current endpoint NPVs strictly bracket a sign
change, keeps them strictly bracketing. -/
theorem bisectStep_invariant (c : List ℚ) {tol : ℚ} (htol : 0 < tol)
    (s : BisectState) (h1 : s.npvLow = npv s.low c) (h2 : s.npvHigh = npv s.high c)
    (h3 : s.npvLow * s.npvHigh < 0) (hmid : ¬ |npv s.mid c| < tol) :
    (bisectStep c s).npvLow = npv (bisectStep c s).low c ∧
      (bisectStep c s).npvHigh = npv (bisectStep c s).high c ∧
      (bisectStep c s).npvLow * (bisectStep c s).npvHigh < 0 := by
  have hm : npv s.mid c ≠ 0 := by
    intro h
    exact hmid (by rw [h]; simpa using htol)
  rw [bisectStep]
  split
  · exact ⟨h1, rfl, by assumption⟩
  · refine ⟨rfl, h2, ?_⟩
    rename_i hc
    rcases lt_trichotomy s.npvLow 0 with h | h | h
    · have hhigh : 0 < s.npvHigh := by nlinarith
      have hmle : npv s.mid c < 0 := by
        rcases lt_or_eq_of_le (not_lt.1 hc) with h' | h'
        · nlinarith
        · rcases mul_eq_zero.1 h'.symm with hz | hz
          · exact absurd hz (ne_of_lt h)
          · exact absurd hz hm
      exact mul_neg_of_neg_of_pos hmle hhigh
    · rw [h] at h3; simp at h3
    · have hhigh : s.npvHigh < 0 := by nlinarith
      have hmge : 0 < npv s.mid c := by
        rcases lt_or_eq_of_le (not_lt.1 hc) with h' | h'
        · nlinarith
        · rcases mul_eq_zero.1 h'.symm with hz | hz
          · exact absurd hz (ne_of_gt h)
          · exact absurd hz hm
      exact mul_neg_of_pos_of_neg hmge hhigh

/-- As long as no midpoint has met the tolerance, the iterated loop state
keeps its cached endpoint NPVs in sync and keeps the endpoint NPVs strictly
bracketing a sign change. -/
theorem bisectIter_invariant (c : List ℚ) {tol : ℚ} (htol : 0 < tol) :
    ∀ (k : ℕ) (s : BisectState), s.npvLow = npv s.low c → s.npvHigh = npv s.high c →
      s.npvLow * s.npvHigh < 0 →
      (∀ j, j < k → ¬ |npv (bisectIter c j s).mid c| < tol) →
      (bisectIter c k s).npvLow = npv (bisectIter c k s).low c ∧
        (bisectIter c k s).npvHigh = npv (bisectIter c k s).high c ∧
        (bisectIter c k s).npvLow * (bisectIter c k s).npvHigh < 0 := by
  intro k
  induction k with
  | zero => intro s h1 h2 h3 _; exact ⟨h1, h2, h3⟩
  | succ m ih =>
    intro s h1 h2 h3 hj
    have h0 : ¬ |npv s.mid c| < tol := by
      have := hj 0 (Nat.succ_pos m)
      simpa [bisectIter] using this
    obtain ⟨g1, g2, g3⟩ := bisectStep_invariant c htol s h1 h2 h3 h0
    rw [bisectIter_succ]
    refine ih (bisectStep c s) g1 g2 g3 fun j hjk => ?_
    have := hj (j + 1) (by omega)
    rwa [bisectIter_succ] at this

end Project2

namespace Project2

/-- In-bounds `getD` agrees with indexed access. -/
theorem getD_eq {l : List ℚ} {i : ℕ} (h : i < l.length) : l.getD i 0 = l[i] := by
  rw [List.getD_eq_getElem?_getD, List.getElem?_eq_getElem h]
  rfl

/-- In-bounds `getD` on a mapped list applies the function to the base entry. -/
theorem map_getD {l : List ℚ} (f : ℚ → ℚ) {i : ℕ} (h : i < l.length) :
    (l.map f).getD i 0 = f (l.getD i 0) := by
  have h' : i < (l.map f).length := by simpa using h
  rw [getD_eq h', getD_eq h, List.getElem_map]

/-- A strictly sorted list is strictly increasing at in-bounds indices. -/
theorem sorted_getD_lt {l : List ℚ} (h : l.Sorted (· < ·)) {i j : ℕ} (hij : i < j)
    (hj : j < l.length) : l.getD i 0 < l.getD j 0 := by
  have hi : i < l.length := lt_trans hij hj
  rw [getD_eq hi, getD_eq hj]
  exact List.pairwise_iff_getElem.1 h i j hi hj hij

/-- Bounds for every rate in the grid of `find_all_irrs`. -/
theorem gridRates_mem_bounds {rmin rmax st x : ℚ} (hst : 0 ≤ st)
    (hx : x ∈ gridRates rmin rmax st) : rmin ≤ x ∧ x ≤ rmax := by
  rw [gridRates] at hx
  exact ⟨ratesFrom_mem_ge hst hx, ratesFrom_mem_le hx⟩

/-- The grid of `find_all_irrs` is strictly increasing for a positive step. -/
theorem gridRates_sorted {rmin rmax st : ℚ} (hst : 0 < st) :
    (gridRates rmin rmax st).Sorted (· < ·) := by
  rw [gridRates]
  exact ratesFrom_sorted hst _ _

/-- The root list of `find_all_irrs`, unfolded. -/
theorem find_all_irrs_fst (c : List ℚ) (rmin rmax st : ℚ) :
    (find_all_irrs c rmin rmax st).1 =
      (bracketList (gridRates rmin rmax st)
          ((gridRates rmin rmax st).map fun r => npv r c)).filterMap
        fun p => irr_bisection_interval c p.1 p.2 := rfl

/-- If NPV keeps one sign over the whole scan range, the grid scan brackets
nothing and `find_all_irrs` returns no roots. -/
theorem find_all_irrs_nil_of_sign (c : List ℚ) (rmin rmax st : ℚ) (hst : 0 ≤ st)
    (h : (∀ r, rmin ≤ r → r ≤ rmax → 0 ≤ npv r c) ∨
      (∀ r, rmin ≤ r → r ≤ rmax → npv r c ≤ 0)) :
    (find_all_irrs c rmin rmax st).1 = [] := by
  rw [find_all_irrs_fst]
  have hb : bracketList (gridRates rmin rmax st)
      ((gridRates rmin rmax st).map fun r => npv r c) = [] := by
    rw [bracketList, List.filterMap_eq_nil_iff]
    intro i hi
    have hilen : i + 1 < (gridRates rmin rmax st).length := by
      have := List.mem_range.1 hi
      omega
    have hilen' : i < (gridRates rmin rmax st).length := by omega
    have hmemi := getD_mem _ i hilen'
    have hmemi1 := getD_mem _ (i + 1) hilen
    obtain ⟨hgi1, hgi2⟩ := gridRates_mem_bounds hst hmemi
    obtain ⟨hgj1, hgj2⟩ := gridRates_mem_bounds hst hmemi1
    rw [if_neg]
    rw [map_getD _ hilen', map_getD _ hilen]
    rcases h with h | h
    · exact not_lt.2 (mul_nonneg (h _ hgi1 hgi2) (h _ hgj1 hgj2))
    · exact not_lt.2 (by nlinarith [h _ hgi1 hgi2, h _ hgj1 hgj2])
  rw [hb]
  rfl

/-- A list with no two elements has length at most one. -/
theorem length_le_one_of_pairwise_false {α : Type} {l : List α}
    (h : l.Pairwise fun _ _ => False) : l.length ≤ 1 := by
  match l, h with
  | [], _ => simp
  | [a], _ => simp
  | a :: b :: t, h =>
    exact ((List.pairwise_cons.1 h).1 b (List.mem_cons_self b t)).elim

end Project2

namespace Project2

/-- With a positive step, the root list of `find_all_irrs` is weakly
increasing: each root stays inside its own bracket, and the brackets appear
in grid order. -/
theorem find_all_irrs_sorted_general (c : List ℚ) (rmin rmax st : ℚ) (hst : 0 < st) :
    ((find_all_irrs c rmin rmax st).1).Sorted (· ≤ ·) := by
  rw [find_all_irrs_fst, bracketList, List.filterMap_filterMap]
  refine List.pairwise_filterMap.2 ?_
  have hsorted : (gridRates rmin rmax st).Sorted (· < ·) := gridRates_sorted hst
  refine List.Pairwise.imp_of_mem ?_ (List.pairwise_lt_range _)
  intro i j hi hj hij x hx y hy
  simp only [Option.mem_def, Option.bind_eq_some] at hx hy
  obtain ⟨p, hp, hFp⟩ := hx
  obtain ⟨q, hq, hFq⟩ := hy
  have hi' : i < (gridRates rmin rmax st).length - 1 := List.mem_range.1 hi
  have hj' : j < (gridRates rmin rmax st).length - 1 := List.mem_range.1 hj
  split at hp
  · rw [Option.some.injEq] at hp
    subst hp
    split at hq
    · rw [Option.some.injEq] at hq
      subst hq
      have hlow_i : (gridRates rmin rmax st).getD i 0 <
          (gridRates rmin rmax st).getD (i + 1) 0 :=
        sorted_getD_lt hsorted (Nat.lt_succ_self i) (by omega)
      have hlow_j : (gridRates rmin rmax st).getD j 0 <
          (gridRates rmin rmax st).getD (j + 1) 0 :=
        sorted_getD_lt hsorted (Nat.lt_succ_self j) (by omega)
      obtain ⟨_, hx2⟩ := irr_some_mem hlow_i.le hFp
      obtain ⟨hy1, _⟩ := irr_some_mem hlow_j.le hFq
      have hmidle : (gridRates rmin rmax st).getD (i + 1) 0 ≤
          (gridRates rmin rmax st).getD j 0 := by
        rcases eq_or_lt_of_le (Nat.succ_le_of_lt hij) with h | h
        · have h' : i + 1 = j := h
          rw [h']
        · exact (sorted_getD_lt hsorted h (by omega)).le
      linarith
    · exact absurd hq (by simp)
  · exact absurd hp (by simp)

/-- For a single negative outlay followed by positive inflows, NPV is
strictly decreasing along the grid, so the grid scan brackets at most one
sign change and `find_all_irrs` returns at most one root. -/
theorem find_all_irrs_length_le_one_aux (c0 : ℚ) (rest : List ℚ)
    (hrest : ∀ x ∈ rest, 0 < x) (hne : rest ≠ []) (rmin rmax st : ℚ)
    (hst : 0 < st) (hrmin : -1 < rmin) :
    ((find_all_irrs (c0 :: rest) rmin rmax st).1).length ≤ 1 := by
  apply length_le_one_of_pairwise_false
  rw [find_all_irrs_fst, bracketList, List.filterMap_filterMap]
  refine List.pairwise_filterMap.2 ?_
  have hsorted : (gridRates rmin rmax st).Sorted (· < ·) := gridRates_sorted hst
  refine List.Pairwise.imp_of_mem ?_ (List.pairwise_lt_range _)
  intro i j hi hj hij x hx y hy
  simp only [Option.mem_def, Option.bind_eq_some] at hx hy
  obtain ⟨p, hp, _⟩ := hx
  obtain ⟨q, hq, _⟩ := hy
  have hi' : i < (gridRates rmin rmax st).length - 1 := List.mem_range.1 hi
  have hj' : j < (gridRates rmin rmax st).length - 1 := List.mem_range.1 hj
  split at hp
  · split at hq
    · rename_i hCi hCj
      rw [map_getD _ (by omega : i < (gridRates rmin rmax st).length),
        map_getD _ (by omega : i + 1 < (gridRates rmin rmax st).length)] at hCi
      rw [map_getD _ (by omega : j < (gridRates rmin rmax st).length),
        map_getD _ (by omega : j + 1 < (gridRates rmin rmax st).length)] at hCj
      have hb : ∀ k, k < (gridRates rmin rmax st).length →
          -1 < (gridRates rmin rmax st).getD k 0 := by
        intro k hk
        exact lt_of_lt_of_le hrmin (gridRates_mem_bounds hst.le (getD_mem _ k hk)).1
      have hdec_i : npv ((gridRates rmin rmax st).getD (i + 1) 0) (c0 :: rest) <
          npv ((gridRates rmin rmax st).getD i 0) (c0 :: rest) :=
        npv_strictAnti_of_one_sign_change c0 rest hrest hne (hb i (by omega))
          (sorted_getD_lt hsorted (Nat.lt_succ_self i) (by omega))
      have hdec_j : npv ((gridRates rmin rmax st).getD (j + 1) 0) (c0 :: rest) <
          npv ((gridRates rmin rmax st).getD j 0) (c0 :: rest) :=
        npv_strictAnti_of_one_sign_change c0 rest hrest hne (hb j (by omega))
          (sorted_getD_lt hsorted (Nat.lt_succ_self j) (by omega))
      have hneg : npv ((gridRates rmin rmax st).getD (i + 1) 0) (c0 :: rest) < 0 := by
        rcases mul_neg_iff.1 hCi with ⟨_, h2⟩ | ⟨h1, h2⟩
        · exact h2
        · linarith
      have hpos : 0 < npv ((gridRates rmin rmax st).getD j 0) (c0 :: rest) := by
        rcases mul_neg_iff.1 hCj with ⟨h1, _⟩ | ⟨h1, h2⟩
        · exact h1
        · linarith
      have hle : npv ((gridRates rmin rmax st).getD j 0) (c0 :: rest) ≤
          npv ((gridRates rmin rmax st).getD (i + 1) 0) (c0 :: rest) := by
        rcases eq_or_lt_of_le (Nat.succ_le_of_lt hij) with h | h
        · have h' : i + 1 = j := h
          rw [h']
        · exact (npv_strictAnti_of_one_sign_change c0 rest hrest hne
            (hb (i + 1) (by omega)) (sorted_getD_lt hsorted h (by omega))).le
      linarith
    · exact absurd hq (by simp)
  · exact absurd hp (by simp)

end Project2

namespace Project2

/-- Claim C1: for every rate r > -1 and every cash-flow sequence c[0..n-1],
npv(r, c) returns the sum over t from 0 to n-1 of c[t] / (1+r)^t. -/
theorem npv_spec (r : ℚ) (c : List ℚ) (_h : -1 < r) :
    npv r c = ∑ t ∈ Finset.range c.length, c.getD t 0 / (1 + r) ^ t :=
  npv_eq_sum_aux r c

/-- Witness for claim C1 at r = 0 and c = [1, 2]. -/
theorem npv_spec_witness :
    (-1 : ℚ) < 0 ∧ npv 0 [1, 2]
      = ∑ t ∈ Finset.range ([1, 2] : List ℚ).length, ([1, 2] : List ℚ).getD t 0 / (1 + 0) ^ t :=
  ⟨by norm_num, npv_spec 0 [1, 2] (by norm_num)⟩

/-- Claim C3: irr_bisection_interval returns the absent marker exactly when
the endpoint NPVs have strictly the same sign; it returns a numeric rate
exactly when they have opposite sign or one is zero.  No exception is
possible: the function is total. -/
theorem irr_bisection_none_iff (c : List ℚ) (low high tol : ℚ) (mi : ℕ) :
    irr_bisection_interval c low high tol mi = none ↔ npv low c * npv high c > 0 := by
  by_cases h : npv low c * npv high c > 0 <;>
    simp [irr_bisection_interval, initState, h]

/-- Counterexample to claim C4 as stated: for cash flows [-1, 1] on the
bracket [0, 1], the entry test passes (product of endpoint NPVs is zero) and
iteration 1 does not return, yet at the start of iteration 2 both endpoint
NPVs are strictly negative: the endpoints no longer bracket a sign change and
neither endpoint is a root. -/
theorem bisection_invariant_cex :
    ¬ npv 0 [-1, 1] * npv 1 [-1, 1] > 0 ∧
      ¬ |npv (initState [-1, 1] 0 1).mid [-1, 1]| < 1 / 1000000 ∧
      npv (bisectStep [-1, 1] (initState [-1, 1] 0 1)).low [-1, 1] < 0 ∧
      npv (bisectStep [-1, 1] (initState [-1, 1] 0 1)).high [-1, 1] < 0 := by
  with_unfolding_all decide

/-- Claim C4 (amended): if the NPVs at the two initial endpoints have
strictly opposite signs (nonzero product), then at the start of every
iteration the loop actually reaches, the NPVs at the two current endpoints
still have strictly opposite signs — the endpoints keep bracketing a sign
change.  (As stated the claim fails only when an endpoint NPV is exactly
zero, which the entry test lets through.) -/
theorem bisection_invariant (c : List ℚ) (low high tol : ℚ) (k : ℕ) (htol : 0 < tol)
    (h0 : npv low c * npv high c < 0)
    (hrun : ∀ j, j < k → ¬ |npv (bisectIter c j (initState c low high)).mid c| < tol) :
    npv (bisectIter c k (initState c low high)).low c *
      npv (bisectIter c k (initState c low high)).high c < 0 := by
  obtain ⟨g1, g2, g3⟩ := bisectIter_invariant c htol k (initState c low high) rfl rfl h0 hrun
  rw [← g1, ← g2]
  exact g3

/-- Witness for amended claim C4: cash flows [-100, 121] on the bracket
[0.2, 0.23], after one iteration. -/
theorem bisection_invariant_witness :
    npv (bisectIter [-100, 121] 1 (initState [-100, 121] (1/5) (23/100))).low [-100, 121] *
      npv (bisectIter [-100, 121] 1 (initState [-100, 121] (1/5) (23/100))).high [-100, 121]
      < 0 :=
  bisection_invariant [-100, 121] (1/5) (23/100) (1/1000000) 1 (by norm_num)
    (by with_unfolding_all decide) (by with_unfolding_all decide)

/-- Claim C5: when the entry test passes and no midpoint NPV within the
iteration budget meets the tolerance, the solver returns the midpoint
computed by its final iteration as a numeric result — neither the absent
marker nor an exception. -/
theorem irr_bisection_exhaustion (c : List ℚ) (low high tol : ℚ) (max_iter : ℕ)
    (hmi : 1 ≤ max_iter) (hbr : ¬ npv low c * npv high c > 0)
    (htol : ∀ j, j < max_iter →
      ¬ |npv (bisectIter c j (initState c low high)).mid c| < tol) :
    irr_bisection_interval c low high tol max_iter
      = some ((bisectIter c (max_iter - 1) (initState c low high)).mid) := by
  rw [irr_bisection_interval]
  rw [if_neg (show ¬ (initState c low high).npvLow * (initState c low high).npvHigh > 0
    from hbr)]
  rw [bisectLoop_exhaust c tol max_iter _ _ hmi htol]

/-- Witness for claim C5: cash flows [-1, 1] on [0, 1] with a budget of two
iterations never meet the tolerance and return the second midpoint. -/
theorem irr_bisection_exhaustion_witness :
    irr_bisection_interval [-1, 1] 0 1 (1/1000000) 2
      = some ((bisectIter [-1, 1] 1 (initState [-1, 1] 0 1)).mid) :=
  irr_bisection_exhaustion [-1, 1] 0 1 (1/1000000) 2 (by norm_num)
    (by with_unfolding_all decide) (by with_unfolding_all decide)

/-- Claim C6: for every cash-flow sequence, the root list returned by
find_all_irrs (with its default scan parameters) is sorted in ascending
order. -/
theorem find_all_irrs_sorted (c : List ℚ) :
    ((find_all_irrs c).1).Sorted (· ≤ ·) :=
  find_all_irrs_sorted_general c _ _ _ (by norm_num)

/-- Claim C7: for every cash-flow sequence whose entries are all positive or
all negative, find_all_irrs returns an empty root list. -/
theorem find_all_irrs_same_sign_nil (c : List ℚ)
    (h : (∀ x ∈ c, 0 < x) ∨ (∀ x ∈ c, x < 0)) :
    (find_all_irrs c).1 = [] := by
  apply find_all_irrs_nil_of_sign c _ _ _ (by norm_num)
  rcases h with h | h
  · left
    intro r hr _
    exact npv_nonneg (fun x hx => (h x hx).le) (by linarith)
  · right
    intro r hr _
    exact npv_nonpos (fun x hx => (h x hx).le) (by linarith)

/-- Witness for claim C7 at the all-positive sequence [1, 2]. -/
theorem find_all_irrs_same_sign_nil_witness : (find_all_irrs [1, 2]).1 = [] :=
  find_all_irrs_same_sign_nil [1, 2] (Or.inl (by decide))

/-- Counterexample to claim C8 as stated: [-1, 1000] has exactly one sign
change, but its unique IRR (999) lies far above the scan maximum 10, so NPV
is strictly positive at every scanned rate and find_all_irrs returns an
empty root list, not a list of length 1. -/
theorem find_all_irrs_single_root_cex : (find_all_irrs [-1, 1000]).1 = [] := by
  apply find_all_irrs_nil_of_sign _ _ _ _ (by norm_num)
  left
  intro r hr hr'
  rw [npv_pair]
  have h1 : (0 : ℚ) < 1 + r := by linarith
  have h2 : 1 + r ≤ 11 := by linarith
  have hu : 1000 / (1 + r) * (1 + r) = 1000 := div_mul_cancel₀ _ (ne_of_gt h1)
  have upos : (0 : ℚ) < 1000 / (1 + r) := div_pos (by norm_num) h1
  have hmul : 1000 / (1 + r) * (1 + r) ≤ 1000 / (1 + r) * 11 :=
    mul_le_mul_of_nonneg_left h2 upos.le
  rw [hu] at hmul
  linarith

/-- Claim C8 (amended): for a cash-flow sequence with a negative first entry
followed by only positive entries, find_all_irrs returns at most one root;
the count can be zero when the unique IRR lies outside the scanned range or
exactly on a grid point, so length exactly 1 is not guaranteed. -/
theorem find_all_irrs_single_sign_change (c0 : ℚ) (rest : List ℚ)
    (h0 : c0 < 0) (hrest : ∀ x ∈ rest, 0 < x) :
    ((find_all_irrs (c0 :: rest)).1).length ≤ 1 := by
  rcases eq_or_ne rest [] with rfl | hne
  · have hnil : (find_all_irrs [c0]).1 = [] := by
      apply find_all_irrs_nil_of_sign _ _ _ _ (by norm_num)
      right
      intro r hr _
      refine npv_nonpos (fun x hx => ?_) (by linarith)
      rw [List.mem_singleton] at hx
      subst hx
      exact h0.le
    rw [hnil]
    simp
  · exact find_all_irrs_length_le_one_aux c0 rest hrest hne _ _ _ (by norm_num) (by norm_num)

/-- Witness for amended claim C8 at the classic annuity [-1, 2]. -/
theorem find_all_irrs_single_sign_change_witness :
    ((find_all_irrs [-1, 2]).1).length ≤ 1 :=
  find_all_irrs_single_sign_change (-1) [2] (by norm_num) (by decide)

/-- Claim C10: a numeric result of irr_bisection_interval on an ordered
interval lies within that interval, and every root returned by
find_all_irrs lies within the scan range [rate_min, rate_max]. -/
theorem irr_results_within_range :
    (∀ (c : List ℚ) (low high tol : ℚ) (mi : ℕ) (x : ℚ), low ≤ high →
        irr_bisection_interval c low high tol mi = some x → low ≤ x ∧ x ≤ high)
    ∧ ∀ (c : List ℚ) (rmin rmax st x : ℚ), 0 < st →
        x ∈ (find_all_irrs c rmin rmax st).1 → rmin ≤ x ∧ x ≤ rmax := by
  constructor
  · intro c low high tol mi x hlh hx
    exact irr_some_mem hlh hx
  · intro c rmin rmax st x hst hx
    rw [find_all_irrs_fst, List.mem_filterMap] at hx
    obtain ⟨p, hp, hFp⟩ := hx
    rw [bracketList, List.mem_filterMap] at hp
    obtain ⟨i, hi, hgi⟩ := hp
    split at hgi
    · rw [Option.some.injEq] at hgi
      subst hgi
      have hi' : i < (gridRates rmin rmax st).length - 1 := List.mem_range.1 hi
      have hlow : (gridRates rmin rmax st).getD i 0 < (gridRates rmin rmax st).getD (i + 1) 0 :=
        sorted_getD_lt (gridRates_sorted hst) (Nat.lt_succ_self i) (by omega)
      obtain ⟨hx1, hx2⟩ := irr_some_mem hlow.le hFp
      obtain ⟨hb1, _⟩ := gridRates_mem_bounds hst.le
        (getD_mem (gridRates rmin rmax st) i (by omega))
      obtain ⟨_, hb2⟩ := gridRates_mem_bounds hst.le
        (getD_mem (gridRates rmin rmax st) (i + 1) (by omega))
      exact ⟨le_trans hb1 hx1, le_trans hx2 hb2⟩
    · exact absurd hgi (by simp)

/-- Witness for claim C10: the bisection result 1/4 for [-4, 5] on [0, 1]
lies in [0, 1], and the root 1/4 found by a scan of [0, 1] in steps of 1/2
lies in the scan range. -/
theorem irr_results_within_range_witness :
    ((0 : ℚ) ≤ 1/4 ∧ (1/4 : ℚ) ≤ 1) ∧ ((0 : ℚ) ≤ 1/4 ∧ (1/4 : ℚ) ≤ 1) :=
  ⟨irr_results_within_range.1 [-4, 5] 0 1 (1/1000000) 1000 (1/4) (by norm_num)
      (by with_unfolding_all decide),
   irr_results_within_range.2 [-4, 5] 0 1 (1/2) (1/4) (by norm_num)
      (by with_unfolding_all decide)⟩

end Project2

namespace Project1

/-- Claim C9: in the GBM price grid, row 0 equals the initial price for every
path; each later entry is the previous entry for the same path times
exp((mu - 0.5 sigma^2) dt + sigma sqrt(dt) Z[t-1][i]); and the prices of a
path depend only on that path's own earlier shocks, not on other paths. -/
theorem gbm_grid_recurrence (Z : ℕ → ℕ → ℝ) :
    (∀ i, S Z 0 i = S0)
    ∧ (∀ t i, S Z (t + 1) i
        = S Z t i * Real.exp ((mu - 0.5 * sigma ^ 2) * dt + sigma * Real.sqrt dt * Z t i))
    ∧ ∀ (W : ℕ → ℕ → ℝ) (t i : ℕ), (∀ u, u < t → Z u i = W u i) → S Z t i = S W t i := by
  refine ⟨fun i => rfl, fun t i => rfl, ?_⟩
  intro W t i h
  induction t with
  | zero => rfl
  | succ u ih =>
    rw [S, S, ih fun v hv => h v (by omega), h u (by omega)]

/-- Witness for claim C9: two shock grids that agree on path 1 before time 3
produce the same price there. -/
theorem gbm_grid_recurrence_witness :
    S (fun t i => (t : ℝ) + i) 3 1
      = S (fun t i => if t < 5 then (t : ℝ) + i else 0) 3 1 :=
  (gbm_grid_recurrence fun t i => (t : ℝ) + i).2.2
    (fun t i => if t < 5 then (t : ℝ) + i else 0) 3 1
    fun u hu => by simp [show u < 5 by omega]

end Project1
